import Mathlib

/-!
Verification of the collaborative-drawing server core:
the operation log (`src/server/drawing-state.js`), the room registry
(`src/server/rooms.js`) and the connection/broadcast layer (the server
entry file).  Each JavaScript method is embedded as a pure Lean function;
`Date.now()` is passed explicitly as a `now : Nat` argument, and the
implicit mutation of `this` becomes explicit state passing.
-/

namespace CollabCanvas

/-- A draw payload as sent by the client.
Shape from the protocol: `{x, y, prevX, prevY, color, width, tool}`. -/
structure DrawData where
  x : Int
  y : Int
  prevX : Int
  prevY : Int
  color : String
  width : Nat
  tool : String
  deriving DecidableEq

/-- The ordinary fields of an operation payload handed to `addOperation`
(the server always calls it with `{type: "draw", userId, data}`). -/
structure OpContent where
  type : String
  userId : String
  data : DrawData
  deriving DecidableEq

/-- A payload object passed to `addOperation`.  Because the source builds
the stored record as `{id: ++counter, timestamp: Date.now(), ...operation}`,
a payload that itself carries an `id` or `timestamp` key overrides the
assigned values (object spread: later keys win).  `idField`/`timestampField`
model the presence of such keys in the payload object. -/
structure OpPayload where
  idField : Option Nat
  timestampField : Option Nat
  content : OpContent
  deriving DecidableEq

/-- A payload with no `id`/`timestamp` keys of its own — the only shape the
repository ever passes (`handleDraw` sends `{type, userId, data}`). -/
def plainPayload (c : OpContent) : OpPayload :=
  ⟨none, none, c⟩

/-- A stored operation record `{id, timestamp, ...content}`. -/
structure Op where
  id : Nat
  timestamp : Nat
  content : OpContent
  deriving DecidableEq

/-- The result value returned by `undo()`/`redo()`:
`{success: true, operations}` or `{success: false, message}`. -/
inductive LogResult where
  | ok (operations : List Op)
  | err (message : String)
  deriving DecidableEq

/-- Whether a `LogResult` is the failure variant. -/
def LogResult.isErr : LogResult → Bool
  | .ok _ => false
  | .err _ => true

/-- `DrawingState` from `drawing-state.js`: the per-canvas operation log. -/
structure DrawingState where
  operations : List Op
  redoStack : List Op
  maxOperations : Nat
  operationIdCounter : Nat
  deriving DecidableEq

namespace DrawingState

/-- `new DrawingState(maxOperations)`; the source defaults the cap to 500. -/
def init (maxOperations : Nat) : DrawingState :=
  ⟨[], [], maxOperations, 0⟩

/-- JavaScript `a.slice(-n)` for a natural `n`: the last `n` elements,
except that `slice(-0)` is `slice(0)`, i.e. the whole array. -/
def jsSliceLast (l : List Op) (n : Nat) : List Op :=
  if n = 0 then l else l.drop (l.length - n)

/-- `addOperation(operation)`: builds `{id: ++counter, timestamp: now,
...operation}` (payload keys override the assigned ones), pushes it,
clears the redo stack, and truncates with `slice(-maxOperations)` when the
length exceeds the cap.  Returns the built record and the new state. -/
def addOperation (s : DrawingState) (now : Nat) (p : OpPayload) : Op × DrawingState :=
  let ctr := s.operationIdCounter + 1
  let op : Op :=
    { id := (p.idField).getD ctr
      timestamp := (p.timestampField).getD now
      content := p.content }
  let pushed := s.operations ++ [op]
  let ops :=
    if pushed.length > s.maxOperations then jsSliceLast pushed s.maxOperations
    else pushed
  (op, { operations := ops, redoStack := [], maxOperations := s.maxOperations,
         operationIdCounter := ctr })

/-- `undo()`: failure on an empty log, otherwise pop the last entry onto
the redo stack and return the remaining entries. -/
def undo (s : DrawingState) : LogResult × DrawingState :=
  match s.operations.getLast? with
  | none => (.err "Nothing to undo", s)
  | some lastOp =>
      (.ok s.operations.dropLast,
       { s with operations := s.operations.dropLast,
                redoStack := s.redoStack ++ [lastOp] })

/-- `redo()`: failure on an empty redo stack, otherwise pop the most
recently undone operation back onto the entries. -/
def redo (s : DrawingState) : LogResult × DrawingState :=
  match s.redoStack.getLast? with
  | none => (.err "Nothing to redo", s)
  | some op =>
      (.ok (s.operations ++ [op]),
       { s with operations := s.operations ++ [op],
                redoStack := s.redoStack.dropLast })

/-- `clear()`: empties both sequences; the id counter is untouched. -/
def clear (s : DrawingState) : DrawingState :=
  { s with operations := [], redoStack := [] }

/-- `getAllOperations()` (returns a copy of the entries). -/
def getAllOperations (s : DrawingState) : List Op :=
  s.operations

/-- `getOperationsSince(sinceId)`: the entries with `id > sinceId`. -/
def getOperationsSince (s : DrawingState) (sinceId : Nat) : List Op :=
  s.operations.filter (fun op => sinceId < op.id)

/-- The snapshot record returned by `getSnapshot()`. -/
structure Snapshot where
  operations : List Op
  operationCount : Nat
  canUndo : Bool
  canRedo : Bool
  lastOperationId : Option Nat
  deriving DecidableEq

/-- `getSnapshot()`. -/
def getSnapshot (s : DrawingState) : Snapshot :=
  { operations := s.getAllOperations
    operationCount := s.operations.length
    canUndo := decide (0 < s.operations.length)
    canRedo := decide (0 < s.redoStack.length)
    lastOperationId := (s.operations.getLast?).map Op.id }

end DrawingState

/-! ## JavaScript `Map` semantics (insertion-ordered association list)

`Map.set` updates the value in place when the key exists, otherwise appends;
`Map.delete` removes the key; `Map.get` looks the key up; `Map.size` is the
number of entries.  `forEach` iterates in insertion order, which the list
order models. -/

/-- `Map.get(k)` on an insertion-ordered association list. -/
def mapGet {α : Type} (k : String) (m : List (String × α)) : Option α :=
  (m.find? (fun p => p.1 = k)).map Prod.snd

/-- `Map.set(k, v)`. -/
def mapSet {α : Type} (k : String) (v : α) (m : List (String × α)) : List (String × α) :=
  if m.any (fun p => p.1 = k) then
    m.map (fun p => if p.1 = k then (k, v) else p)
  else m ++ [(k, v)]

/-- `Map.delete(k)`. -/
def mapDelete {α : Type} (k : String) (m : List (String × α)) : List (String × α) :=
  m.filter (fun p => ¬ p.1 = k)

/-! ## Room registry (`rooms.js`) -/

/-- A client transport handle; `readyState === 1` means open
(`WebSocket.OPEN`). -/
structure Transport where
  readyState : Nat
  deriving DecidableEq

/-- The user record a room stores: the caller-provided info (of which the
broadcast path reads only the `ws` handle) plus the recorded join time. -/
structure RoomUser where
  ws : Option Transport
  joinedAt : Nat
  deriving DecidableEq

/-- A room: `{id, users, drawingState, createdAt}`. -/
structure Room where
  id : String
  users : List (String × RoomUser)
  drawingState : DrawingState
  createdAt : Nat
  deriving DecidableEq

/-- `RoomManager` state: the room map and the distinguished default id. -/
structure RoomManager where
  rooms : List (String × Room)
  defaultRoomId : String
  deriving DecidableEq

namespace RoomManager

/-- `createRoom(roomId)`: idempotent; a fresh room gets its own
`new DrawingState()` (cap 500).  Returns the (existing or new) room. -/
def createRoom (m : RoomManager) (roomId : String) (now : Nat) : Room × RoomManager :=
  match mapGet roomId m.rooms with
  | some room => (room, m)
  | none =>
      let room : Room :=
        { id := roomId, users := [], drawingState := DrawingState.init 500,
          createdAt := now }
      (room, { m with rooms := mapSet roomId room m.rooms })

/-- The constructor: an empty map, default id `"default"`, and the default
room created eagerly. -/
def init (now : Nat) : RoomManager :=
  (createRoom { rooms := [], defaultRoomId := "default" } "default" now).2

/-- `getRoom(roomId)` (`null` becomes `none`). -/
def getRoom (m : RoomManager) (roomId : String) : Option Room :=
  mapGet roomId m.rooms

/-- `getOrCreateRoom(roomId)`. -/
def getOrCreateRoom (m : RoomManager) (roomId : String) (now : Nat) : Room × RoomManager :=
  match getRoom m roomId with
  | some room => (room, m)
  | none => createRoom m roomId now

/-- `addUserToRoom(roomId, userId, userInfo)`: get-or-create, then
`users.set(userId, {...userInfo, joinedAt: Date.now()})`. -/
def addUserToRoom (m : RoomManager) (roomId userId : String) (ws : Option Transport)
    (now : Nat) : RoomManager :=
  let rm := getOrCreateRoom m roomId now
  let room := rm.1
  let room' := { room with users := mapSet userId ⟨ws, now⟩ room.users }
  { rm.2 with rooms := mapSet roomId room' rm.2.rooms }

/-- `deleteRoom(roomId)`: removes the room unless it is the default room. -/
def deleteRoom (m : RoomManager) (roomId : String) : RoomManager :=
  if roomId = m.defaultRoomId then m
  else { m with rooms := mapDelete roomId m.rooms }

/-- `removeUserFromRoom(roomId, userId)`: delete the user, then garbage
collect the room when it became empty and is not the default room. -/
def removeUserFromRoom (m : RoomManager) (roomId userId : String) : RoomManager :=
  match getRoom m roomId with
  | none => m
  | some room =>
      let room' := { room with users := mapDelete userId room.users }
      let m' := { m with rooms := mapSet roomId room' m.rooms }
      if room'.users.length = 0 ∧ roomId ≠ m.defaultRoomId then
        deleteRoom m' roomId
      else m'

/-- Whether `user.ws && user.ws.readyState === 1` holds. -/
def userOpen (u : RoomUser) : Bool :=
  match u.ws with
  | some w => w.readyState = 1
  | none => false

/-- `broadcastToRoom(roomId, message, excludeUserId)`: serializes once and
sends the serialized string to every user of the room whose transport is
open, skipping the excluded id; no-op when the room is missing.  The value
is the list of `(userId, sentString)` deliveries in iteration order. -/
def broadcastToRoom {μ : Type} (m : RoomManager) (roomId : String) (message : μ)
    (serialize : μ → String) (excludeUserId : Option String) :
    List (String × String) :=
  match getRoom m roomId with
  | none => []
  | some room =>
      let messageStr := serialize message
      room.users.filterMap (fun p =>
        if (some p.1 ≠ excludeUserId) ∧ userOpen p.2 then some (p.1, messageStr)
        else none)

end RoomManager

/-! ## Server entry file (connection handling and fan-out)

The single-room deployment keeps one global `users` map
(`userId -> {id, username, color, ws}`) and one global `drawingState`. -/

/-- A session record in the server-level `users` map; here `ws` is always
present (it is stored at connection time). -/
structure SessionUser where
  username : String
  color : String
  ws : Transport
  deriving DecidableEq

/-- A server→client message relevant to draw/cursor handling. -/
inductive ServerMsg where
  | draw (userId : String) (data : DrawData)
  | cursor (userId : String) (x y : Int)
  deriving DecidableEq

/-- The server-level mutable state the draw/cursor handlers touch. -/
structure ServerState where
  users : List (String × SessionUser)
  drawingState : DrawingState
  deriving DecidableEq

/-- `broadcast(message, excludeUserId)`: stringify once, then send to every
user other than the excluded one whose `ws.readyState === WebSocket.OPEN`
(`OPEN = 1`).  The value is the delivery list `(userId, message)`; the
payload is kept symbolic since every recipient gets the one serialized
form of the same `ServerMsg`. -/
def broadcast (users : List (String × SessionUser)) (message : ServerMsg)
    (excludeUserId : Option String) : List (String × ServerMsg) :=
  users.filterMap (fun p =>
    if (some p.1 ≠ excludeUserId) ∧ p.2.ws.readyState = 1 then some (p.1, message)
    else none)

/-- `handleDraw(userId, drawData)`: append `{type: "draw", userId, data}` to
the log, then broadcast a `draw` message to all users, sender included. -/
def handleDraw (st : ServerState) (userId : String) (drawData : DrawData)
    (now : Nat) : ServerState × List (String × ServerMsg) :=
  let r := st.drawingState.addOperation now (plainPayload ⟨"draw", userId, drawData⟩)
  let st' := { st with drawingState := r.2 }
  (st', broadcast st'.users (.draw userId drawData) none)

/-- `handleCursor(userId, data)`: no log mutation; broadcast the cursor
position to every user except the sender. -/
def handleCursor (st : ServerState) (userId : String) (x y : Int) :
    ServerState × List (String × ServerMsg) :=
  (st, broadcast st.users (.cursor userId x y) (some userId))

/-! ## Reachable states

`Reachable` closes the fresh log under the four mutators.  Appends carry
plain payloads (no `id`/`timestamp` keys), which is the only shape any call
site in the repository produces (`handleDraw` passes `{type, userId, data}`). -/

/-- Log states reachable from a fresh `DrawingState` by the repository's
mutation paths. -/
inductive Reachable : DrawingState → Prop where
  | init (cap : Nat) : Reachable (DrawingState.init cap)
  | append {s : DrawingState} (now : Nat) (c : OpContent) :
      Reachable s → Reachable (s.addOperation now (plainPayload c)).2
  | undo {s : DrawingState} : Reachable s → Reachable s.undo.2
  | redo {s : DrawingState} : Reachable s → Reachable s.redo.2
  | clear {s : DrawingState} : Reachable s → Reachable s.clear

/-- Room-registry states reachable from the constructor by the public
mutators. -/
inductive ReachableRM : RoomManager → Prop where
  | init (now : Nat) : ReachableRM (RoomManager.init now)
  | createRoom {m : RoomManager} (roomId : String) (now : Nat) :
      ReachableRM m → ReachableRM (m.createRoom roomId now).2
  | getOrCreateRoom {m : RoomManager} (roomId : String) (now : Nat) :
      ReachableRM m → ReachableRM (m.getOrCreateRoom roomId now).2
  | addUser {m : RoomManager} (roomId userId : String) (ws : Option Transport) (now : Nat) :
      ReachableRM m → ReachableRM (m.addUserToRoom roomId userId ws now)
  | removeUser {m : RoomManager} (roomId userId : String) :
      ReachableRM m → ReachableRM (m.removeUserFromRoom roomId userId)
  | deleteRoom {m : RoomManager} (roomId : String) :
      ReachableRM m → ReachableRM (m.deleteRoom roomId)

/-! ## History invariant of the operation log

`histIds` lists the ids of the live entries followed by the undone ids in
undo order (most recently undone first when read from the entries side);
for reachable states it is strictly increasing and bounded by the id
counter.  Undo and redo permute operations between the two sequences
without changing this combined list. -/

/-- The ids of `operations` followed by the reversed ids of `redoStack`. -/
def histIds (s : DrawingState) : List Nat :=
  s.operations.map Op.id ++ (s.redoStack.map Op.id).reverse

/-- Invariant of reachable log states: the combined id list is strictly
increasing and every id is at most the current counter value. -/
def LogInv (s : DrawingState) : Prop :=
  (histIds s).Sorted (· < ·) ∧ ∀ i ∈ histIds s, i ≤ s.operationIdCounter

theorem jsSliceLast_sublist (l : List Op) (n : Nat) :
    List.Sublist (DrawingState.jsSliceLast l n) l := by
  unfold DrawingState.jsSliceLast
  split
  · exact List.Sublist.refl l
  · exact List.drop_sublist _ l

theorem histIds_undo (s : DrawingState) : histIds s.undo.2 = histIds s := by
  unfold DrawingState.undo
  cases hL : s.operations.getLast? with
  | none => rfl
  | some a =>
      have hx : s.operations.dropLast ++ [a] = s.operations :=
        List.dropLast_append_getLast? a hL
      simp only [histIds]
      conv_rhs => rw [← hx]
      simp [List.reverse_append]

theorem histIds_redo (s : DrawingState) : histIds s.redo.2 = histIds s := by
  unfold DrawingState.redo
  cases hL : s.redoStack.getLast? with
  | none => rfl
  | some a =>
      have hx : s.redoStack.dropLast ++ [a] = s.redoStack :=
        List.dropLast_append_getLast? a hL
      simp only [histIds]
      conv_rhs => rw [← hx]
      simp [List.reverse_append]

theorem counter_undo (s : DrawingState) :
    s.undo.2.operationIdCounter = s.operationIdCounter := by
  unfold DrawingState.undo
  cases s.operations.getLast? <;> rfl

theorem counter_redo (s : DrawingState) :
    s.redo.2.operationIdCounter = s.operationIdCounter := by
  unfold DrawingState.redo
  cases s.redoStack.getLast? <;> rfl

/-- `addOperation` on a payload without `id`/`timestamp` keys, spelled out. -/
theorem addOperation_plain (s : DrawingState) (now : Nat) (c : OpContent) :
    s.addOperation now (plainPayload c) =
      ((⟨s.operationIdCounter + 1, now, c⟩ : Op),
       { operations :=
           if (s.operations ++ [(⟨s.operationIdCounter + 1, now, c⟩ : Op)]).length >
               s.maxOperations then
             DrawingState.jsSliceLast
               (s.operations ++ [(⟨s.operationIdCounter + 1, now, c⟩ : Op)]) s.maxOperations
           else s.operations ++ [(⟨s.operationIdCounter + 1, now, c⟩ : Op)]
         redoStack := []
         maxOperations := s.maxOperations
         operationIdCounter := s.operationIdCounter + 1 }) := rfl

theorem logInv_init (cap : Nat) : LogInv (DrawingState.init cap) :=
  ⟨List.Pairwise.nil, by simp [histIds, DrawingState.init]⟩

theorem logInv_clear {s : DrawingState} (_ : LogInv s) : LogInv s.clear :=
  ⟨List.Pairwise.nil, by simp [histIds, DrawingState.clear]⟩

theorem logInv_undo {s : DrawingState} (h : LogInv s) : LogInv s.undo.2 := by
  refine ⟨?_, ?_⟩
  · rw [histIds_undo]; exact h.1
  · rw [histIds_undo, counter_undo]; exact h.2

theorem logInv_redo {s : DrawingState} (h : LogInv s) : LogInv s.redo.2 := by
  refine ⟨?_, ?_⟩
  · rw [histIds_redo]; exact h.1
  · rw [histIds_redo, counter_redo]; exact h.2

theorem logInv_append {s : DrawingState} (h : LogInv s) (now : Nat) (c : OpContent) :
    LogInv (s.addOperation now (plainPayload c)).2 := by
  obtain ⟨hsort, hle⟩ := h
  have hopsSorted : (s.operations.map Op.id).Sorted (· < ·) :=
    List.Pairwise.sublist (List.sublist_append_left _ _) hsort
  have hpushSorted :
      ((s.operations ++ [(⟨s.operationIdCounter + 1, now, c⟩ : Op)]).map Op.id).Sorted
        (· < ·) := by
    rw [List.map_append]
    refine List.pairwise_append.mpr ⟨hopsSorted, List.pairwise_singleton _ _, ?_⟩
    intro a ha b hb
    have ha' : a ≤ s.operationIdCounter :=
      hle a (List.mem_append_left _ ha)
    simp only [List.map_cons, List.map_nil, List.mem_singleton] at hb
    omega
  have hsub :
      List.Sublist (s.addOperation now (plainPayload c)).2.operations
        (s.operations ++ [(⟨s.operationIdCounter + 1, now, c⟩ : Op)]) := by
    rw [addOperation_plain]
    dsimp only
    split
    · exact jsSliceLast_sublist _ _
    · exact List.Sublist.refl _
  refine ⟨?_, ?_⟩
  · have : histIds (s.addOperation now (plainPayload c)).2 =
        (s.addOperation now (plainPayload c)).2.operations.map Op.id := by
      rw [addOperation_plain]; simp [histIds]
    rw [this]
    exact List.Pairwise.sublist (List.Sublist.map _ hsub) hpushSorted
  · intro i hi
    have hctr : (s.addOperation now (plainPayload c)).2.operationIdCounter =
        s.operationIdCounter + 1 := by
      rw [addOperation_plain]
    have hi' : i ∈ (s.addOperation now (plainPayload c)).2.operations.map Op.id := by
      have : histIds (s.addOperation now (plainPayload c)).2 =
          (s.addOperation now (plainPayload c)).2.operations.map Op.id := by
        rw [addOperation_plain]; simp [histIds]
      rwa [this] at hi
    have hmem :
        i ∈ (s.operations ++ [(⟨s.operationIdCounter + 1, now, c⟩ : Op)]).map Op.id :=
      (List.Sublist.map Op.id hsub).mem hi'
    rw [List.map_append] at hmem
    rcases List.mem_append.mp hmem with hmem | hmem
    · have := hle i (List.mem_append_left _ hmem)
      omega
    · simp only [List.map_cons, List.map_nil, List.mem_singleton] at hmem
      omega

/-- Every reachable log state satisfies the history invariant. -/
theorem reachable_logInv {s : DrawingState} (h : Reachable s) : LogInv s := by
  induction h with
  | init cap => exact logInv_init cap
  | append now c _ ih => exact logInv_append ih now c
  | undo _ ih => exact logInv_undo ih
  | redo _ ih => exact logInv_redo ih
  | clear _ ih => exact logInv_clear ih

/-- In a strictly increasing list every element is at most the last one. -/
theorem sorted_le_of_getLast? :
    ∀ (l : List Nat), l.Sorted (· < ·) → ∀ (a : Nat), l.getLast? = some a →
      ∀ x ∈ l, x ≤ a := by
  intro l
  induction l with
  | nil => intro _ a ha; simp at ha
  | cons b t ih =>
      intro hs a hl x hx
      rcases List.sorted_cons.mp hs with ⟨hb, ht⟩
      cases t with
      | nil =>
          simp at hl hx
          omega
      | cons c t' =>
          rw [List.getLast?_cons_cons] at hl
          rcases List.mem_cons.mp hx with rfl | hx'
          · exact Nat.le_of_lt (hb a (List.mem_of_getLast?_eq_some hl))
          · exact ih ht a hl x hx'

/-- The operation built by a plain append becomes the newest entry, even
when the cap truncates (truncation only drops from the front). -/
theorem addOperation_plain_getLast? (s : DrawingState) (now : Nat) (c : OpContent) :
    (s.addOperation now (plainPayload c)).2.operations.getLast? =
      some (s.addOperation now (plainPayload c)).1 := by
  rw [addOperation_plain]
  dsimp only
  split
  · unfold DrawingState.jsSliceLast
    split
    · exact List.getLast?_concat _
    · rename_i hcap
      rw [List.drop_append_of_le_length (by simp; omega)]
      exact List.getLast?_concat _
  · exact List.getLast?_concat _

/-! ## Sample data used by the concrete witnesses -/

/-- A concrete draw payload. -/
def sampleDraw : DrawData :=
  ⟨0, 0, 1, 1, "#e74c3c", 2, "brush"⟩

/-- A concrete operation payload content. -/
def sampleContent : OpContent :=
  ⟨"draw", "user_1", sampleDraw⟩

/-- A second concrete content. -/
def sampleContent2 : OpContent :=
  ⟨"draw", "user_2", sampleDraw⟩

/-- A fresh default-capacity log with one appended operation. -/
def sampleState : DrawingState :=
  ((DrawingState.init 500).addOperation 7 (plainPayload sampleContent)).2

/-- `sampleState` is reachable. -/
theorem sampleState_reachable : Reachable sampleState :=
  Reachable.append 7 sampleContent (Reachable.init 500)

/-! ## C1: undo followed by redo restores the log -/

/-- C1: with a non-empty `entries` sequence and no intervening append,
`undo()` followed by `redo()` restores the exact prior `entries` sequence
(same records, hence same ids in the same order) and returns the
`undoneStack` (`redoStack`) to its prior contents. -/
theorem undo_redo_roundtrip (s : DrawingState) (h : s.operations ≠ []) :
    s.undo.2.redo.2.operations = s.operations ∧
    s.undo.2.redo.2.redoStack = s.redoStack := by
  cases hL : s.operations.getLast? with
  | none => exact absurd (List.getLast?_eq_none_iff.mp hL) h
  | some a =>
      have hx : s.operations.dropLast ++ [a] = s.operations :=
        List.dropLast_append_getLast? a hL
      unfold DrawingState.undo
      rw [hL]
      unfold DrawingState.redo
      dsimp only
      rw [List.getLast?_concat]
      dsimp only
      rw [List.dropLast_concat, hx]
      exact ⟨rfl, rfl⟩

theorem undo_redo_roundtrip_witness :
    sampleState.operations ≠ [] ∧
    (sampleState.undo.2.redo.2.operations = sampleState.operations ∧
     sampleState.undo.2.redo.2.redoStack = sampleState.redoStack) :=
  ⟨by decide, undo_redo_roundtrip sampleState (by decide)⟩

/-! ## C3: empty-state failures of undo/redo -/

/-- C3 (counterexample): on an empty log the failure result of `undo()`
does not carry the reason `"nothing to undo"` — the source string is
`"Nothing to undo"` (capital N). -/
theorem undo_message_case_counterexample :
    (DrawingState.init 500).undo.1 = LogResult.err "Nothing to undo" ∧
    (DrawingState.init 500).undo.1 ≠ LogResult.err "nothing to undo" := by
  constructor
  · rfl
  · decide

/-- C3 (amended): `undo()` fails iff `entries` is empty, in which case it
returns the failure result with message `"Nothing to undo"` and leaves the
state unchanged; symmetrically `redo()` fails iff `undoneStack`
(`redoStack`) is empty, with message `"Nothing to redo"` and no mutation. -/
theorem undo_redo_empty_failure (s : DrawingState) :
    (s.undo.1.isErr = true ↔ s.operations = []) ∧
    (s.operations = [] → s.undo = (LogResult.err "Nothing to undo", s)) ∧
    (s.redo.1.isErr = true ↔ s.redoStack = []) ∧
    (s.redoStack = [] → s.redo = (LogResult.err "Nothing to redo", s)) := by
  refine ⟨?_, ?_, ?_, ?_⟩
  · cases hL : s.operations.getLast? with
    | none =>
        simp only [DrawingState.undo, hL, LogResult.isErr]
        simpa using List.getLast?_eq_none_iff.mp hL
    | some a =>
        simp only [DrawingState.undo, hL, LogResult.isErr]
        constructor
        · intro h; exact absurd h (by simp)
        · intro h; rw [h] at hL; simp at hL
  · intro h
    unfold DrawingState.undo
    rw [h]
    rfl
  · cases hL : s.redoStack.getLast? with
    | none =>
        simp only [DrawingState.redo, hL, LogResult.isErr]
        simpa using List.getLast?_eq_none_iff.mp hL
    | some a =>
        simp only [DrawingState.redo, hL, LogResult.isErr]
        constructor
        · intro h; exact absurd h (by simp)
        · intro h; rw [h] at hL; simp at hL
  · intro h
    unfold DrawingState.redo
    rw [h]
    rfl

theorem undo_redo_empty_failure_witness :
    (sampleState.undo.2.undo.1.isErr = true ↔ sampleState.undo.2.operations = []) ∧
    (sampleState.undo.2.operations = [] →
      sampleState.undo.2.undo = (LogResult.err "Nothing to undo", sampleState.undo.2)) ∧
    (sampleState.undo.2.redo.1.isErr = true ↔ sampleState.undo.2.redoStack = []) ∧
    (sampleState.undo.2.redoStack = [] →
      sampleState.undo.2.redo = (LogResult.err "Nothing to redo", sampleState.undo.2)) :=
  undo_redo_empty_failure sampleState.undo.2

/-! ## C4: the append contract -/

/-- C4 (counterexample): `addOperation` does not always return an operation
carrying the next id — a payload with an `id` key of its own overrides the
assigned id via the object spread. -/
theorem addOperation_id_field_counterexample :
    ((DrawingState.init 500).addOperation 0 ⟨some 999, none, sampleContent⟩).1.id ≠
      (DrawingState.init 500).operationIdCounter + 1 := by
  decide

/-- C4 (amended): for every payload that does not itself carry `id` or
`timestamp` keys — the only shape the repository passes — `addOperation`
always succeeds: it returns the operation with the next id
(`counter + 1`, never one already used in the log) and the current
timestamp, stores it as the newest entry, and empties the redo stack, so a
redo immediately afterwards fails. -/
theorem addOperation_plain_contract (s : DrawingState) (now : Nat) (c : OpContent)
    (hs : Reachable s) :
    (s.addOperation now (plainPayload c)).1.id = s.operationIdCounter + 1 ∧
    (s.addOperation now (plainPayload c)).1.timestamp = now ∧
    (s.addOperation now (plainPayload c)).2.operations.getLast? =
      some (s.addOperation now (plainPayload c)).1 ∧
    (s.addOperation now (plainPayload c)).2.redoStack = [] ∧
    (s.addOperation now (plainPayload c)).2.redo.1 =
      LogResult.err "Nothing to redo" ∧
    ∀ i ∈ histIds s, i ≠ (s.addOperation now (plainPayload c)).1.id := by
  refine ⟨rfl, rfl, addOperation_plain_getLast? s now c, ?_, ?_, ?_⟩
  · rw [addOperation_plain]
  · rw [addOperation_plain]
    rfl
  · intro i hi
    have hle := (reachable_logInv hs).2 i hi
    rw [addOperation_plain]
    dsimp only
    omega

theorem addOperation_plain_contract_witness :
    Reachable sampleState ∧
    (sampleState.addOperation 9 (plainPayload sampleContent2)).1.id =
      sampleState.operationIdCounter + 1 ∧
    (sampleState.addOperation 9 (plainPayload sampleContent2)).1.timestamp = 9 ∧
    (sampleState.addOperation 9 (plainPayload sampleContent2)).2.operations.getLast? =
      some (sampleState.addOperation 9 (plainPayload sampleContent2)).1 ∧
    (sampleState.addOperation 9 (plainPayload sampleContent2)).2.redoStack = [] ∧
    (sampleState.addOperation 9 (plainPayload sampleContent2)).2.redo.1 =
      LogResult.err "Nothing to redo" ∧
    (1 : Nat) ≠ (sampleState.addOperation 9 (plainPayload sampleContent2)).1.id :=
  ⟨sampleState_reachable,
   (addOperation_plain_contract sampleState 9 sampleContent2 sampleState_reachable).1,
   (addOperation_plain_contract sampleState 9 sampleContent2 sampleState_reachable).2.1,
   (addOperation_plain_contract sampleState 9 sampleContent2 sampleState_reachable).2.2.1,
   (addOperation_plain_contract sampleState 9 sampleContent2
     sampleState_reachable).2.2.2.1,
   (addOperation_plain_contract sampleState 9 sampleContent2
     sampleState_reachable).2.2.2.2.1,
   (addOperation_plain_contract sampleState 9 sampleContent2
     sampleState_reachable).2.2.2.2.2 1 (by decide)⟩

/-! ## C5: entries and the redo stack are disjoint -/

/-- C5: in every reachable log state no operation record is present in both
`entries` (`operations`) and the `undoneStack` (`redoStack`) at once. -/
theorem entries_disjoint_redoStack (s : DrawingState) (hs : Reachable s) :
    s.operations.Disjoint s.redoStack := by
  intro op h1 h2
  have hnodup : (histIds s).Nodup :=
    (reachable_logInv hs).1.imp (fun hlt => Nat.ne_of_lt hlt)
  exact List.disjoint_of_nodup_append hnodup
    (List.mem_map_of_mem Op.id h1)
    (List.mem_reverse.mpr (List.mem_map_of_mem Op.id h2))

theorem entries_disjoint_redoStack_witness :
    Reachable sampleState.undo.2 ∧
    sampleState.undo.2.operations.Disjoint sampleState.undo.2.redoStack :=
  ⟨Reachable.undo sampleState_reachable,
   entries_disjoint_redoStack sampleState.undo.2 (Reachable.undo sampleState_reachable)⟩

/-! ## C10: payload `id`/`timestamp` keys override the assigned identity -/

/-- C10: because the stored record is `{id, timestamp, ...operation}`, a
payload carrying its own `id` and `timestamp` keys overrides the
counter-assigned id and the creation timestamp; the id counter is still
incremented. -/
theorem addOperation_payload_override (s : DrawingState) (now i t : Nat) (c : OpContent) :
    (s.addOperation now ⟨some i, some t, c⟩).1.id = i ∧
    (s.addOperation now ⟨some i, some t, c⟩).1.timestamp = t ∧
    (s.addOperation now ⟨some i, some t, c⟩).2.operationIdCounter =
      s.operationIdCounter + 1 := by
  exact ⟨rfl, rfl, rfl⟩

/-! ## C8: `getOperationsSince` -/

/-- C8: `getOperationsSince(id)` returns exactly the entries with id
strictly greater than the given id, preserving their order in `entries`
(the result is a sublist), and for reachable states it returns the empty
sequence whenever the given id is at least `lastOperationId`. -/
theorem getOperationsSince_spec (s : DrawingState) (sinceId : Nat) (hs : Reachable s) :
    (∀ op : Op, op ∈ s.getOperationsSince sinceId ↔
      op ∈ s.operations ∧ sinceId < op.id) ∧
    List.Sublist (s.getOperationsSince sinceId) s.operations ∧
    (∀ lastId, (s.getSnapshot).lastOperationId = some lastId → lastId ≤ sinceId →
      s.getOperationsSince sinceId = []) := by
  refine ⟨?_, ?_, ?_⟩
  · intro op
    simp [DrawingState.getOperationsSince, List.mem_filter]
  · exact List.filter_sublist _
  · intro lastId hlast hle
    have hsorted : (s.operations.map Op.id).Sorted (· < ·) :=
      List.Pairwise.sublist (List.sublist_append_left _ _) (reachable_logInv hs).1
    simp only [DrawingState.getSnapshot, DrawingState.getAllOperations] at hlast
    rcases Option.map_eq_some'.mp hlast with ⟨a, hGL, hid⟩
    have hmapLast : (s.operations.map Op.id).getLast? = some a.id := by
      have hx := List.dropLast_append_getLast? a hGL
      conv_lhs => rw [← hx]
      rw [List.map_append]
      exact List.getLast?_concat _
    have hbound := sorted_le_of_getLast? _ hsorted _ hmapLast
    unfold DrawingState.getOperationsSince
    rw [List.filter_eq_nil_iff]
    intro op hop
    have hid' : op.id ≤ a.id := hbound _ (List.mem_map_of_mem Op.id hop)
    simp only [decide_eq_true_eq]
    omega

theorem getOperationsSince_spec_witness :
    Reachable sampleState ∧
    ((⟨1, 7, sampleContent⟩ : Op) ∈ sampleState.getOperationsSince 0 ↔
      (⟨1, 7, sampleContent⟩ : Op) ∈ sampleState.operations ∧
        0 < (⟨1, 7, sampleContent⟩ : Op).id) ∧
    sampleState.getOperationsSince 1 = [] :=
  ⟨sampleState_reachable,
   (getOperationsSince_spec sampleState 0 sampleState_reachable).1 ⟨1, 7, sampleContent⟩,
   (getOperationsSince_spec sampleState 1 sampleState_reachable).2.2 1 (by decide)
     (by decide)⟩

/-! ## C2: the size cap -/

/-- A sequence of plain appends (each with its timestamp and content)
starting from a fresh log with the given cap. -/
def appendRun (cap : Nat) (l : List (Nat × OpContent)) : DrawingState :=
  l.foldl (fun s x => (s.addOperation x.1 (plainPayload x.2)).2) (DrawingState.init cap)

/-- The operations such a run creates, starting from counter value `c`:
ids `c+1, c+2, ...` with the requested timestamps and contents. -/
def idealOpsFrom (c : Nat) : List (Nat × OpContent) → List Op
  | [] => []
  | x :: xs => ⟨c + 1, x.1, x.2⟩ :: idealOpsFrom (c + 1) xs

/-- The operations created by a run from a fresh log. -/
def idealOps (l : List (Nat × OpContent)) : List Op :=
  idealOpsFrom 0 l

theorem idealOpsFrom_length (c : Nat) (l : List (Nat × OpContent)) :
    (idealOpsFrom c l).length = l.length := by
  induction l generalizing c with
  | nil => rfl
  | cons y t ih => simp [idealOpsFrom, ih]

theorem idealOpsFrom_append (c : Nat) (l : List (Nat × OpContent)) (x : Nat × OpContent) :
    idealOpsFrom c (l ++ [x]) =
      idealOpsFrom c l ++ [⟨c + l.length + 1, x.1, x.2⟩] := by
  induction l generalizing c with
  | nil => simp [idealOpsFrom]
  | cons y t ih =>
      have harith : c + 1 + t.length + 1 = c + (t.length + 1) + 1 := by omega
      simp only [List.cons_append, idealOpsFrom, List.append_eq, ih, List.length_cons,
        harith]

theorem idealOpsFrom_map_id (c : Nat) (l : List (Nat × OpContent)) :
    (idealOpsFrom c l).map Op.id = List.range' (c + 1) l.length := by
  induction l generalizing c with
  | nil => rfl
  | cons y t ih =>
      simp only [idealOpsFrom, List.map_cons, List.length_cons, List.range'_succ, ih]

/-- C2 (counterexample): a log constructed with cap `0` does not keep its
entries within the cap — JavaScript `slice(-0)` is `slice(0)`, so the
truncation never removes anything and one append already exceeds the cap. -/
theorem append_cap_zero_counterexample :
    (appendRun 0 [(0, sampleContent)]).operations.length >
      (appendRun 0 [(0, sampleContent)]).maxOperations := by
  decide

/-- The main induction: for a positive cap, a run of plain appends keeps
exactly the most recent `cap` of the ideally created operations. -/
theorem appendRun_ops (cap : Nat) (hcap : 1 ≤ cap) (l : List (Nat × OpContent)) :
    (appendRun cap l).operations =
      (idealOps l).drop ((idealOps l).length - cap) ∧
    (appendRun cap l).operationIdCounter = l.length ∧
    (appendRun cap l).maxOperations = cap := by
  induction l using List.reverseRecOn with
  | nil => simp [appendRun, idealOps, idealOpsFrom, DrawingState.init]
  | append_singleton l x ih =>
      obtain ⟨hops, hctr, hmax⟩ := ih
      have hlenA : (idealOps l).length = l.length := idealOpsFrom_length 0 l
      have hstep : appendRun cap (l ++ [x]) =
          ((appendRun cap l).addOperation x.1 (plainPayload x.2)).2 := by
        simp [appendRun]
      have hB : idealOps (l ++ [x]) =
          idealOps l ++ [⟨l.length + 1, x.1, x.2⟩] := by
        have := idealOpsFrom_append 0 l x
        simpa [idealOps] using this
      have hlenB : (idealOps (l ++ [x])).length = l.length + 1 := by
        rw [hB, List.length_append, hlenA]
        rfl
      have hdropapp :
          (idealOps l).drop (l.length - cap) ++ [(⟨l.length + 1, x.1, x.2⟩ : Op)] =
            (idealOps (l ++ [x])).drop (l.length - cap) := by
        rw [hB]
        exact (List.drop_append_of_le_length (by omega)).symm
      rw [hstep, addOperation_plain, hops, hctr, hmax]
      dsimp only
      rw [hlenB, hlenA]
      rcases Nat.lt_or_ge l.length cap with hcase | hcase
      · -- still under the cap: no truncation
        have h0 : l.length - cap = 0 := by omega
        have h1 : l.length + 1 - cap = 0 := by omega
        rw [h0] at hdropapp
        have hlen : ((idealOps l).drop (l.length - cap) ++
            [(⟨l.length + 1, x.1, x.2⟩ : Op)]).length = l.length + 1 := by
          rw [h0]
          simp [hlenA]
        rw [if_neg (by rw [hlen]; omega)]
        refine ⟨?_, by simp, rfl⟩
        rw [h0, hdropapp, h1]
      · -- at the cap: the oldest entry is dropped
        have hlen : ((idealOps l).drop (l.length - cap) ++
            [(⟨l.length + 1, x.1, x.2⟩ : Op)]).length = cap + 1 := by
          simp [hlenA]
          omega
        rw [if_pos (by rw [hlen]; omega)]
        refine ⟨?_, by simp, rfl⟩
        unfold DrawingState.jsSliceLast
        rw [if_neg (by omega), hlen, hdropapp, List.drop_drop]
        have : l.length - cap + (cap + 1 - cap) = l.length + 1 - cap := by omega
        rw [this]

/-- C2 (amended): for every sequence of appends to a log constructed with a
positive cap (the default is 500), the length of `entries` never exceeds
the cap, and the retained entries are exactly the most recent ones by id:
the final segment of the ideally created operation sequence, whose ids are
`1, 2, ..., n` in ascending order. -/
theorem appendRun_capped (cap : Nat) (l : List (Nat × OpContent)) (hcap : 1 ≤ cap) :
    (appendRun cap l).operations.length ≤ cap ∧
    (appendRun cap l).operations =
      (idealOps l).drop ((idealOps l).length - cap) ∧
    (idealOps l).map Op.id = List.range' 1 l.length := by
  obtain ⟨hops, _, _⟩ := appendRun_ops cap hcap l
  refine ⟨?_, hops, ?_⟩
  · rw [hops, List.length_drop]
    omega
  · exact idealOpsFrom_map_id 0 l

/-! ## Association-map lemmas -/

theorem find?_replaceAll {α : Type} (k : String) (v : α) :
    ∀ m : List (String × α), m.any (fun p => p.1 = k) = true →
      (m.map (fun p => if p.1 = k then (k, v) else p)).find? (fun p => p.1 = k) =
        some (k, v) := by
  intro m
  induction m with
  | nil => intro h; simp at h
  | cons p t ih =>
      intro h
      by_cases hp : p.1 = k
      · simp [hp]
      · rw [List.any_cons] at h
        simp only [hp, decide_False, Bool.false_or] at h
        simp only [List.map_cons, if_neg hp]
        rw [List.find?_cons_of_neg _ (by simpa using hp)]
        exact ih h

theorem find?_appendNew {α : Type} (k : String) (v : α) :
    ∀ m : List (String × α), m.any (fun p => p.1 = k) = false →
      (m ++ [(k, v)]).find? (fun p => p.1 = k) = some (k, v) := by
  intro m
  induction m with
  | nil => simp
  | cons p t ih =>
      intro h
      rw [List.any_cons, Bool.or_eq_false_iff] at h
      rw [List.cons_append, List.find?_cons_of_neg _ (by simpa using h.1)]
      exact ih h.2

theorem mapGet_mapSet_self {α : Type} (k : String) (v : α) (m : List (String × α)) :
    mapGet k (mapSet k v m) = some v := by
  unfold mapGet mapSet
  split
  · rename_i h
    rw [find?_replaceAll k v m h]
    rfl
  · rename_i h
    rw [find?_appendNew k v m (Bool.eq_false_iff.mpr h)]
    rfl

theorem find?_replace_ne {α : Type} {k k' : String} (h : k ≠ k') (v : α) :
    ∀ m : List (String × α),
      (m.map (fun p => if p.1 = k' then (k', v) else p)).find? (fun p => p.1 = k) =
        m.find? (fun p => p.1 = k) := by
  intro m
  induction m with
  | nil => rfl
  | cons p t ih =>
      by_cases hp : p.1 = k'
      · have hpk : ¬ p.1 = k := by rw [hp]; exact fun he => h he.symm
        rw [List.map_cons, if_pos hp,
          List.find?_cons_of_neg _ (by simpa using fun he => h he.symm),
          List.find?_cons_of_neg _ (by simpa using hpk)]
        exact ih
      · rw [List.map_cons, if_neg hp]
        by_cases hpk : p.1 = k
        · rw [List.find?_cons_of_pos _ (by simpa using hpk),
            List.find?_cons_of_pos _ (by simpa using hpk)]
        · rw [List.find?_cons_of_neg _ (by simpa using hpk),
            List.find?_cons_of_neg _ (by simpa using hpk)]
          exact ih

theorem find?_concat_ne {α : Type} {k k' : String} (h : k ≠ k') (v : α) :
    ∀ m : List (String × α),
      (m ++ [(k', v)]).find? (fun p => p.1 = k) = m.find? (fun p => p.1 = k) := by
  intro m
  induction m with
  | nil =>
      simp only [List.nil_append]
      rw [List.find?_cons_of_neg _ (by simpa using fun he => h he.symm)]
  | cons p t ih =>
      rw [List.cons_append]
      by_cases hpk : p.1 = k
      · rw [List.find?_cons_of_pos _ (by simpa using hpk),
          List.find?_cons_of_pos _ (by simpa using hpk)]
      · rw [List.find?_cons_of_neg _ (by simpa using hpk),
          List.find?_cons_of_neg _ (by simpa using hpk)]
        exact ih

theorem mapGet_mapSet_ne {α : Type} {k k' : String} (h : k ≠ k') (v : α)
    (m : List (String × α)) : mapGet k (mapSet k' v m) = mapGet k m := by
  unfold mapGet mapSet
  split
  · rw [find?_replace_ne h v m]
  · rw [find?_concat_ne h v m]

theorem mapGet_mapDelete_self {α : Type} (k : String) (m : List (String × α)) :
    mapGet k (mapDelete k m) = none := by
  have h : (mapDelete k m).find? (fun p => p.1 = k) = none := by
    rw [List.find?_eq_none]
    intro p hp
    have h2 := (List.mem_filter.mp hp).2
    simp at h2 ⊢
    exact h2
  unfold mapGet
  rw [h]
  rfl

theorem mapGet_mapDelete_ne {α : Type} {k k' : String} (h : k ≠ k')
    (m : List (String × α)) : mapGet k (mapDelete k' m) = mapGet k m := by
  unfold mapGet mapDelete
  induction m with
  | nil => rfl
  | cons p t ih =>
      by_cases hp : p.1 = k'
      · have hpk : ¬ p.1 = k := by rw [hp]; exact fun he => h he.symm
        rw [List.filter_cons_of_neg (by simpa using hp),
          List.find?_cons_of_neg _ (by simpa using hpk)]
        exact ih
      · rw [List.filter_cons_of_pos (by simpa using hp)]
        by_cases hpk : p.1 = k
        · rw [List.find?_cons_of_pos _ (by simpa using hpk),
            List.find?_cons_of_pos _ (by simpa using hpk)]
        · rw [List.find?_cons_of_neg _ (by simpa using hpk),
            List.find?_cons_of_neg _ (by simpa using hpk)]
          exact ih

theorem isSome_mapGet_mapSet {α : Type} (d k : String) (v : α) (m : List (String × α))
    (h : (mapGet d m).isSome = true) : (mapGet d (mapSet k v m)).isSome = true := by
  by_cases hk : d = k
  · subst hk
    rw [mapGet_mapSet_self]
    rfl
  · rw [mapGet_mapSet_ne hk v m]
    exact h

theorem appendRun_capped_witness :
    1 ≤ 2 ∧
    ((appendRun 2 [(0, sampleContent), (1, sampleContent2), (2, sampleContent)]).operations.length ≤ 2 ∧
     (appendRun 2 [(0, sampleContent), (1, sampleContent2), (2, sampleContent)]).operations =
       (idealOps [(0, sampleContent), (1, sampleContent2), (2, sampleContent)]).drop
         ((idealOps [(0, sampleContent), (1, sampleContent2), (2, sampleContent)]).length - 2) ∧
     (idealOps [(0, sampleContent), (1, sampleContent2), (2, sampleContent)]).map Op.id =
       List.range' 1 3) :=
  ⟨by decide,
   appendRun_capped 2 [(0, sampleContent), (1, sampleContent2), (2, sampleContent)]
     (by decide)⟩

/-! ## C6: default-room persistence -/

theorem createRoom_defaultRoomId (m : RoomManager) (roomId : String) (now : Nat) :
    (m.createRoom roomId now).2.defaultRoomId = m.defaultRoomId := by
  unfold RoomManager.createRoom
  cases mapGet roomId m.rooms <;> rfl

theorem getOrCreateRoom_defaultRoomId (m : RoomManager) (roomId : String) (now : Nat) :
    (m.getOrCreateRoom roomId now).2.defaultRoomId = m.defaultRoomId := by
  unfold RoomManager.getOrCreateRoom
  cases RoomManager.getRoom m roomId with
  | none => exact createRoom_defaultRoomId m roomId now
  | some room => rfl

theorem createRoom_default_isSome {m : RoomManager} (roomId : String) (now : Nat)
    (h : (mapGet m.defaultRoomId m.rooms).isSome = true) :
    (mapGet (m.createRoom roomId now).2.defaultRoomId
      (m.createRoom roomId now).2.rooms).isSome = true := by
  unfold RoomManager.createRoom
  cases hg : mapGet roomId m.rooms with
  | some room => exact h
  | none =>
      dsimp only
      exact isSome_mapGet_mapSet _ _ _ _ h

theorem getOrCreateRoom_default_isSome {m : RoomManager} (roomId : String) (now : Nat)
    (h : (mapGet m.defaultRoomId m.rooms).isSome = true) :
    (mapGet (m.getOrCreateRoom roomId now).2.defaultRoomId
      (m.getOrCreateRoom roomId now).2.rooms).isSome = true := by
  unfold RoomManager.getOrCreateRoom
  cases hg : RoomManager.getRoom m roomId with
  | none => exact createRoom_default_isSome roomId now h
  | some room => exact h

theorem addUser_default_isSome {m : RoomManager} (roomId userId : String)
    (ws : Option Transport) (now : Nat)
    (h : (mapGet m.defaultRoomId m.rooms).isSome = true) :
    (mapGet (m.addUserToRoom roomId userId ws now).defaultRoomId
      (m.addUserToRoom roomId userId ws now).rooms).isSome = true := by
  have h2 := getOrCreateRoom_default_isSome roomId now h
  unfold RoomManager.addUserToRoom
  dsimp only
  exact isSome_mapGet_mapSet _ _ _ _ h2

theorem deleteRoom_default_isSome {m : RoomManager} (roomId : String)
    (h : (mapGet m.defaultRoomId m.rooms).isSome = true) :
    (mapGet (m.deleteRoom roomId).defaultRoomId (m.deleteRoom roomId).rooms).isSome =
      true := by
  unfold RoomManager.deleteRoom
  split
  · exact h
  · rename_i hne
    dsimp only
    rw [mapGet_mapDelete_ne (fun he => hne he.symm)]
    exact h

theorem removeUser_default_isSome {m : RoomManager} (roomId userId : String)
    (h : (mapGet m.defaultRoomId m.rooms).isSome = true) :
    (mapGet (m.removeUserFromRoom roomId userId).defaultRoomId
      (m.removeUserFromRoom roomId userId).rooms).isSome = true := by
  unfold RoomManager.removeUserFromRoom
  cases hg : RoomManager.getRoom m roomId with
  | none => exact h
  | some room =>
      dsimp only
      split
      · rename_i hcond
        unfold RoomManager.deleteRoom
        rw [if_neg hcond.2]
        dsimp only
        rw [mapGet_mapDelete_ne (fun he => hcond.2 he.symm)]
        exact isSome_mapGet_mapSet _ _ _ _ h
      · dsimp only
        exact isSome_mapGet_mapSet _ _ _ _ h

/-- Every reachable registry state still contains the default room. -/
theorem reachableRM_default_isSome {m : RoomManager} (hm : ReachableRM m) :
    (mapGet m.defaultRoomId m.rooms).isSome = true := by
  induction hm with
  | init now => rfl
  | createRoom roomId now _ ih => exact createRoom_default_isSome roomId now ih
  | getOrCreateRoom roomId now _ ih => exact getOrCreateRoom_default_isSome roomId now ih
  | addUser roomId userId ws now _ ih => exact addUser_default_isSome roomId userId ws now ih
  | removeUser roomId userId _ ih => exact removeUser_default_isSome roomId userId ih
  | deleteRoom roomId _ ih => exact deleteRoom_default_isSome roomId ih

/-- C6: in every reachable registry state the default room id exists; the
removal of the last user deletes a non-default room but leaves the default
room in existence with zero users; and a direct `deleteRoom` call never
removes the default room. -/
theorem default_room_persistence (m : RoomManager) (hm : ReachableRM m) :
    (mapGet m.defaultRoomId m.rooms).isSome = true ∧
    (∀ roomId userId room, m.getRoom roomId = some room →
      roomId ≠ m.defaultRoomId → mapDelete userId room.users = [] →
      (m.removeUserFromRoom roomId userId).getRoom roomId = none) ∧
    (∀ userId room, m.getRoom m.defaultRoomId = some room →
      mapDelete userId room.users = [] →
      ∃ room', (m.removeUserFromRoom m.defaultRoomId userId).getRoom m.defaultRoomId =
          some room' ∧ room'.users = []) ∧
    (∀ roomId, (m.deleteRoom roomId).getRoom m.defaultRoomId =
      m.getRoom m.defaultRoomId) := by
  refine ⟨reachableRM_default_isSome hm, ?_, ?_, ?_⟩
  · intro roomId userId room hroom hne hempty
    unfold RoomManager.removeUserFromRoom
    rw [hroom]
    dsimp only
    rw [if_pos ⟨by rw [hempty]; rfl, hne⟩]
    unfold RoomManager.deleteRoom
    rw [if_neg hne]
    unfold RoomManager.getRoom
    dsimp only
    exact congrArg (Option.map Prod.snd) ((List.find?_eq_none).mpr (by
      intro p hp
      have h2 := (List.mem_filter.mp hp).2
      simp at h2 ⊢
      exact h2))
  · intro userId room hroom hempty
    unfold RoomManager.removeUserFromRoom
    rw [hroom]
    dsimp only
    rw [if_neg (by intro hc; exact hc.2 rfl)]
    refine ⟨{ room with users := mapDelete userId room.users }, ?_, by rw [hempty]⟩
    unfold RoomManager.getRoom
    dsimp only
    exact mapGet_mapSet_self _ _ _
  · intro roomId
    unfold RoomManager.deleteRoom
    split
    · rfl
    · rename_i hne
      unfold RoomManager.getRoom
      dsimp only
      exact mapGet_mapDelete_ne (fun he => hne he.symm) _

/-- A concrete registry: the constructor state plus one user in room
`"r1"`. -/
def sampleManager : RoomManager :=
  (RoomManager.init 0).addUserToRoom "r1" "u1" (some ⟨1⟩) 3

theorem sampleManager_reachable : ReachableRM sampleManager :=
  ReachableRM.addUser "r1" "u1" (some ⟨1⟩) 3 (ReachableRM.init 0)

theorem default_room_persistence_witness :
    ReachableRM sampleManager ∧
    (mapGet sampleManager.defaultRoomId sampleManager.rooms).isSome = true ∧
    (sampleManager.removeUserFromRoom "r1" "u1").getRoom "r1" = none ∧
    (sampleManager.deleteRoom "default").getRoom sampleManager.defaultRoomId =
      sampleManager.getRoom sampleManager.defaultRoomId :=
  ⟨sampleManager_reachable,
   (default_room_persistence sampleManager sampleManager_reachable).1,
   (default_room_persistence sampleManager sampleManager_reachable).2.1 "r1" "u1"
     ⟨"r1", [("u1", ⟨some ⟨1⟩, 3⟩)], DrawingState.init 500, 3⟩ (by decide) (by decide)
     (by decide),
   (default_room_persistence sampleManager sampleManager_reachable).2.2.2 "default"⟩

/-! ## C9: room broadcast -/

theorem filterMap_guard {α β : Type} (p : α → Prop) [DecidablePred p] (f : α → β)
    (l : List α) :
    (l.filterMap fun a => if p a then some (f a) else none) =
      (l.filter fun a => decide (p a)).map f := by
  induction l with
  | nil => rfl
  | cons a t ih =>
      by_cases h : p a
      · simp [List.filterMap_cons, List.filter_cons, h, ih]
      · simp [List.filterMap_cons, List.filter_cons, h, ih]

/-- C9: `broadcastToRoom` is a no-op for a missing room; otherwise it
delivers the one serialized form of the message to exactly the users of
the room whose transport is open and who are not the excluded session —
closed transports are skipped while the rest still receive the message. -/
theorem broadcastToRoom_spec {μ : Type} (m : RoomManager) (roomId : String) (message : μ)
    (serialize : μ → String) (excludeUserId : Option String) :
    (m.getRoom roomId = none →
      m.broadcastToRoom roomId message serialize excludeUserId = []) ∧
    (∀ room, m.getRoom roomId = some room →
      m.broadcastToRoom roomId message serialize excludeUserId =
        (room.users.filter fun p =>
          decide ((some p.1 ≠ excludeUserId) ∧ RoomManager.userOpen p.2)).map
          (fun p => (p.1, serialize message))) ∧
    (∀ d ∈ m.broadcastToRoom roomId message serialize excludeUserId,
      d.2 = serialize message) := by
  refine ⟨?_, ?_, ?_⟩
  · intro h
    unfold RoomManager.broadcastToRoom
    rw [h]
  · intro room h
    unfold RoomManager.broadcastToRoom
    rw [h]
    exact filterMap_guard _ _ _
  · intro d hd
    unfold RoomManager.broadcastToRoom at hd
    cases hg : m.getRoom roomId with
    | none =>
        rw [hg] at hd
        simp at hd
    | some room =>
        rw [hg] at hd
        dsimp only at hd
        rcases List.mem_filterMap.mp hd with ⟨a, ha, hif⟩
        split at hif
        · injection hif with h2
          rw [← h2]
        · exact absurd hif (by simp)

theorem broadcastToRoom_spec_witness :
    sampleManager.getRoom "nope" = none ∧
    sampleManager.broadcastToRoom "nope" "hello" (fun s => s) none = [] :=
  ⟨by decide,
   (broadcastToRoom_spec sampleManager "nope" "hello" (fun s => s) none).1 (by decide)⟩

/-! ## C7: draw and cursor dispatch -/

theorem broadcast_eq_filter (users : List (String × SessionUser)) (msg : ServerMsg)
    (ex : Option String) :
    broadcast users msg ex =
      (users.filter fun p => decide (some p.1 ≠ ex ∧ p.2.ws.readyState = 1)).map
        (fun p => (p.1, msg)) := by
  unfold broadcast
  exact filterMap_guard _ _ _

/-- C7: a `draw` message appends `{type: "draw", userId, data}` to the log
and delivers a `draw` broadcast with the identical payload to every
session whose transport is open, the sender included; a `cursor` message
leaves the whole server state (in particular the log) unchanged and is
delivered to every open session except the sender. -/
theorem draw_cursor_dispatch (st : ServerState) (userId : String) (d : DrawData)
    (x y : Int) (now : Nat) :
    ((handleDraw st userId d now).1.drawingState.operations.getLast?).map Op.content =
      some ⟨"draw", userId, d⟩ ∧
    (handleDraw st userId d now).1.drawingState =
      (st.drawingState.addOperation now (plainPayload ⟨"draw", userId, d⟩)).2 ∧
    (handleDraw st userId d now).1.users = st.users ∧
    (handleDraw st userId d now).2 =
      (st.users.filter fun p => decide (p.2.ws.readyState = 1)).map
        (fun p => (p.1, ServerMsg.draw userId d)) ∧
    (handleCursor st userId x y).1 = st ∧
    (handleCursor st userId x y).2 =
      (st.users.filter fun p => decide (¬ p.1 = userId ∧ p.2.ws.readyState = 1)).map
        (fun p => (p.1, ServerMsg.cursor userId x y)) := by
  refine ⟨?_, rfl, rfl, ?_, rfl, ?_⟩
  · show ((st.drawingState.addOperation now
        (plainPayload ⟨"draw", userId, d⟩)).2.operations.getLast?).map Op.content =
      some ⟨"draw", userId, d⟩
    rw [addOperation_plain_getLast?]
    rfl
  · show broadcast st.users (ServerMsg.draw userId d) none = _
    rw [broadcast_eq_filter]
    congr 1
    apply List.filter_congr
    intro a _
    simp
  · show broadcast st.users (ServerMsg.cursor userId x y) (some userId) = _
    rw [broadcast_eq_filter]
    congr 1
    apply List.filter_congr
    intro a _
    simp

/-- A concrete server state with one open and one closed session. -/
def sampleServer : ServerState :=
  ⟨[("user_1", ⟨"HappyArtist1", "#e74c3c", ⟨1⟩⟩),
    ("user_2", ⟨"CoolPainter2", "#3498db", ⟨3⟩⟩)],
   DrawingState.init 500⟩

theorem draw_cursor_dispatch_witness :
    ((handleDraw sampleServer "user_1" sampleDraw 9).1.drawingState.operations.getLast?).map
        Op.content = some ⟨"draw", "user_1", sampleDraw⟩ ∧
    (handleDraw sampleServer "user_1" sampleDraw 9).1.drawingState =
      (sampleServer.drawingState.addOperation 9
        (plainPayload ⟨"draw", "user_1", sampleDraw⟩)).2 ∧
    (handleDraw sampleServer "user_1" sampleDraw 9).1.users = sampleServer.users ∧
    (handleDraw sampleServer "user_1" sampleDraw 9).2 =
      (sampleServer.users.filter fun p => decide (p.2.ws.readyState = 1)).map
        (fun p => (p.1, ServerMsg.draw "user_1" sampleDraw)) ∧
    (handleCursor sampleServer "user_1" 4 5).1 = sampleServer ∧
    (handleCursor sampleServer "user_1" 4 5).2 =
      (sampleServer.users.filter fun p =>
        decide (¬ p.1 = "user_1" ∧ p.2.ws.readyState = 1)).map
        (fun p => (p.1, ServerMsg.cursor "user_1" 4 5)) :=
  draw_cursor_dispatch sampleServer "user_1" sampleDraw 4 5 9

end CollabCanvas
